import Mathlib

/-!
# RadLocal — verification of the core pipeline

Shallow embedding of the RadLocal intel tool's core modules
(`logistics.py`, `audio_engine.py`, `threat_profiler.py`, `cartographer.py`,
`intel_parser.py`, `intel_tailer.py`) and proofs of the specified properties.

Conventions used throughout the embedding:
* Python `dict`s are modelled as association lists (`List (k × v)`, lookup by
  first match, update by prepend-shadowing or in-place replacement) or, where
  only `get`-with-default is ever observed, as total functions with the
  default value standing for an absent key.
* Python `time.time()` values are `Nat` seconds.  Python's `a - b < c` test on
  ints agrees with truncated `Nat` subtraction everywhere it is used here
  (both sides drop below the threshold when `b > a`).
* Fallible I/O collaborators (ESI, zKillboard, the filesystem) are modelled as
  explicit `Option`-valued oracles passed in as parameters.
* Unbounded `while` loops are modelled with an explicit fuel parameter; the
  runner returns `none` when fuel runs out, and theorems about a completed
  run take `… = some result` as a hypothesis.
-/

namespace RadLocal

/-! ## logistics.py — `JumpBridgeManager`

`self.bridges` is a dict from int node id to a list of peer ids.  A key that
is absent behaves exactly like a key mapped to `[]` in every observable way
(`get_bridges` uses `.get(id, [])`, and both mutators guard membership tests
with key-existence checks), so the store is modelled as a total function
`Int → List Int` whose default is `[]`. -/

/-- Point update of a bridge store (Python `self.bridges[k] = v`). -/
def updateFn (br : Int → List Int) (k : Int) (v : List Int) : Int → List Int :=
  fun x => if x = k then v else br x

/-- `JumpBridgeManager.add_bridge`: append each endpoint to the other's peer
list unless already present.  The two conditional appends happen in sequence,
which matters when `a = b`. -/
def addBridge (br : Int → List Int) (a b : Int) : Int → List Int :=
  let br1 := if b ∈ br a then br else updateFn br a (br a ++ [b])
  if a ∈ br1 b then br1 else updateFn br1 b (br1 b ++ [a])

/-- `JumpBridgeManager.remove_bridge`: remove each endpoint from the other's
peer list when present (Python `list.remove` drops the first occurrence;
`List.erase` does the same). -/
def removeBridge (br : Int → List Int) (a b : Int) : Int → List Int :=
  let br1 := if b ∈ br a then updateFn br a ((br a).erase b) else br
  if a ∈ br1 b then updateFn br1 b ((br1 b).erase a) else br1

/-- `JumpBridgeManager.get_bridges`. -/
def getBridges (br : Int → List Int) (i : Int) : List Int := br i

/-- Bridge stores reachable from a fresh (empty) manager by any sequence of
`add_bridge` / `remove_bridge` calls. -/
inductive ReachableBr : (Int → List Int) → Prop where
  | init : ReachableBr (fun _ => [])
  | add (br : Int → List Int) (a b : Int) : ReachableBr br → ReachableBr (addBridge br a b)
  | remove (br : Int → List Int) (a b : Int) :
      ReachableBr br → ReachableBr (removeBridge br a b)

/-- Well-formedness of a bridge store: duplicate-free peer lists and a
symmetric relation. -/
def WfBr (br : Int → List Int) : Prop :=
  (∀ i, (br i).Nodup) ∧ (∀ i j, i ∈ br j ↔ j ∈ br i)

/-! ## audio_engine.py — `AudioManager.process_threat` -/

/-- One queued audio instruction (`_queue_alert` payload). -/
structure Alert where
  level : String
  system : String
  jumps : Int
  deriving DecidableEq, Repr

/-- The dispatcher state touched by `process_threat`: the cooldown cache
(dict keyed by system name, prepend-shadowed) and the pending FIFO queue. -/
structure AudioState where
  cooldown : List (String × Nat)
  queue : List Alert
  deriving Repr

/-- `AudioManager.process_threat`.  `now` is `int(time.time())`. -/
def processThreat (st : AudioState) (system : String) (jumps : Int)
    (friendly : Bool) (now : Nat) : AudioState :=
  if friendly then st
  else if 10 ≤ jumps then st
  else
    let lastPlayed := ((st.cooldown.lookup system).getD 0 : Nat)
    if now - lastPlayed < 30 then st
    else
      let cd := (system, now) :: st.cooldown
      if jumps = 0 then
        { cooldown := cd, queue := st.queue ++ [⟨"CRITICAL", system, jumps⟩] }
      else if 1 ≤ jumps ∧ jumps ≤ 4 then
        { cooldown := cd, queue := st.queue ++ [⟨"HIGH", system, jumps⟩] }
      else if 5 ≤ jumps ∧ jumps ≤ 9 then
        { cooldown := cd, queue := st.queue ++ [⟨"LOW", system, jumps⟩] }
      else
        { cooldown := cd, queue := st.queue }

/-- ASCII lowercasing of one character (the model of Python `str.lower`,
restricted to the ASCII range — every name and keyword the claims touch is
ASCII, and non-ASCII characters pass through unchanged). -/
def pyLowerChar (c : Char) : Char :=
  if 'A' ≤ c ∧ c ≤ 'Z' then Char.ofNat (c.toNat + 32) else c

/-- Python `str.lower` (ASCII model). -/
def pyLower (s : String) : String := String.mk (s.data.map pyLowerChar)

/-! ## threat_profiler.py — `ThreatProfiler`

The external collaborators (ESI name resolution, ESI affiliation lookup,
zKillboard stats) are modelled as `Option`-valued oracles: `none` stands for
any of the failure modes the Python code maps to `None` (exception, HTTP
error, rate limit, empty/falsy payload). -/

/-- One entry of a zKillboard `topLists` element (only the `name` field is
read). -/
structure ShipUse where
  name : String
  deriving DecidableEq, Repr

/-- One element of zKillboard's `topLists`. -/
structure TopList where
  type : String
  values : List ShipUse
  deriving DecidableEq, Repr

/-- The parts of a zKillboard stats payload read by `_analyze_threat_profile`:
`topLists` is `none` when the key is missing, and `danger` is the payload's
`dangerRatio` with Python's `.get(…, 0)` default applied by the caller side
of the model (a missing value is passed as `0`). -/
structure ZkillStats where
  topLists : Option (List TopList)
  danger : Int
  deriving DecidableEq, Repr

def SHIPS_TACKLE : List String :=
  ["Sabre", "Flycatcher", "Eris", "Heretic", "Stiletto", "Malediction", "Crow",
   "Ares", "Broadsword", "Onyx", "Phobos", "Devoter"]

def SHIPS_BLOPS : List String :=
  ["Panther", "Redeemer", "Widow", "Sin", "Marshal", "Tengu", "Loki", "Legion", "Proteus"]

def SHIPS_BOMBER : List String :=
  ["Hound", "Nemesis", "Manticore", "Purifier"]

def SHIPS_HUNTER : List String :=
  ["Kikimora", "Orthrus", "Omen Navy Issue", "Osprey Navy Issue", "Vagabond", "Vedmak"]

/-- The four sequential tag checks applied to one of the top-3 ships
(`_analyze_threat_profile`, lines 122-131).  Note the first guard tests
membership of `"TACKLE"` while appending `"TACKLE/INTERDICTOR"`, exactly as in
the source. -/
def tagStep (tags : List String) (s : ShipUse) : List String :=
  let t1 := if s.name ∈ SHIPS_TACKLE ∧ "TACKLE" ∉ tags then tags ++ ["TACKLE/INTERDICTOR"] else tags
  let t2 := if s.name ∈ SHIPS_BLOPS ∧ "BLOPS/DROPPER" ∉ t1 then t1 ++ ["BLOPS/DROPPER"] else t1
  let t3 := if s.name ∈ SHIPS_BOMBER ∧ "BOMBER" ∉ t2 then t2 ++ ["BOMBER"] else t2
  if s.name ∈ SHIPS_HUNTER ∧ "KITE/HUNTER" ∉ t3 then t3 ++ ["KITE/HUNTER"] else t3

/-- `ThreatProfiler._analyze_threat_profile`.  The argument is `none` when the
payload is falsy (`None` or empty dict, whose `topLists` is equally absent). -/
def analyzeThreatProfile (z : Option ZkillStats) : String × String :=
  match z with
  | none => ("Desconocido", "No Data")
  | some zd =>
    match zd.topLists with
    | none => ("Desconocido", "No Data")
    | some lists =>
      let topShips := ((lists.find? (fun l => l.type == "shipType")).map TopList.values).getD []
      match topShips with
      | [] => ("Desconocido", "Mínimo/Industrial")
      | primary :: _ =>
        let tags := (topShips.take 3).foldl tagStep []
        let threatTag := if tags.isEmpty then "General PVP" else String.intercalate " | " tags
        let threatTag := if zd.danger > 80 then threatTag ++ " (Peligroso)" else threatTag
        (primary.name, threatTag)

/-- One threat-cache entry (friendly entries carry no ship data). -/
inductive ThreatEntry where
  | friendly (timestamp : Nat)
  | hostile (timestamp : Nat) (topShip threatTag : String)
  deriving DecidableEq, Repr

/-- The entry's `timestamp` field (`fetchedAt` in the spec). -/
def ThreatEntry.timestamp : ThreatEntry → Nat
  | .friendly t => t
  | .hostile t _ _ => t

/-- `ThreatProfiler._load_cache`: drop entries older than 24 hours at load
time.  This is the only place any TTL check happens. -/
def loadThreatCache (stored : List (String × ThreatEntry)) (now : Nat) :
    List (String × ThreatEntry) :=
  stored.filter (fun e => now - e.2.timestamp < 86400)

/-- The external collaborators used by `profile_player`. -/
structure EsiCollab where
  resolveId : String → Option Int
  affiliation : Int → Option Int × Option Int
  zkill : Int → Option ZkillStats

/-- Rendering of a cache hit in `profile_player` (lines 148-152). -/
def renderCachedProfile : ThreatEntry → String
  | .friendly _ => "ALIADO"
  | .hostile _ top tag => top ++ " - Perfil: " ++ tag

/-- Python `if self.my_alliance_id and alliance_id == self.my_alliance_id`:
`None` and `0` are falsy. -/
def isFriendlyAff (myAlliance allianceId : Option Int) : Bool :=
  match myAlliance with
  | none => false
  | some m => if m = 0 then false else allianceId == some m

/-- `ThreatProfiler.profile_player`.  Returns the rendered profile string and
the updated in-memory cache (the on-disk `_save_cache` writes exactly the
returned cache whenever it differs from the input). -/
def profilePlayer (col : EsiCollab) (myAlliance : Option Int)
    (cache : List (String × ThreatEntry)) (name : String) (now : Nat) :
    String × List (String × ThreatEntry) :=
  let cName := pyLower name
  match cache.lookup cName with
  | some e => (renderCachedProfile e, cache)
  | none =>
    match col.resolveId name with
    | none => ("NO ENCONTRADO", cache)
    | some charId =>
      let allianceId := (col.affiliation charId).1
      if isFriendlyAff myAlliance allianceId then
        ("ALIADO", (cName, .friendly now) :: cache)
      else
        match col.zkill charId with
        | none => ("SIN HISTORIAL PVP", cache)
        | some z =>
          let p := analyzeThreatProfile (some z)
          (p.1 ++ " - Perfil: " ++ p.2, (cName, .hostile now p.1 p.2) :: cache)

/-- A collaborator for which every external lookup fails (used as a concrete
counterexample environment). -/
def failCol : EsiCollab :=
  { resolveId := fun _ => none
    affiliation := fun _ => (none, none)
    zkill := fun _ => none }

/-- A concrete stored threat cache holding one hostile entry fetched at
time 999000. -/
def storedC1 : List (String × ThreatEntry) :=
  [("bob", .hostile 999000 "Sabre" "BOMBER")]

/-! ## cartographer.py — `Cartographer`

The ESI node-data collaborator is an `Option`-valued oracle `esi`; the durable
node cache is an association list keyed by node id (Python uses `str(id)`
keys, which is an injective image of the ids, so `Int` keys are used
directly).  Positions are kept as integers and the relative position is the
plain difference — the `/ SCALE_FACTOR` float division is presentation-only
scaling not touched by any claim.  The unbounded `while queue` loop is run on
explicit fuel; `none` means the fuel ran out. -/

/-- The node data cached per system (`_fetch_system_data` cache entry: name,
position, static stargate connections). -/
structure SysData where
  name : String
  x : Int
  z : Int
  connections : List Int
  deriving DecidableEq, Repr

/-- One entry of the returned local map. -/
structure MapEntry where
  name : String
  jumps : Nat
  xRel : Int
  zRel : Int
  stargates : List Int
  jumpBridges : List Int
  deriving DecidableEq, Repr

/-- The durable system cache. -/
abbrev SysCache := List (Int × SysData)

/-- `Cartographer._fetch_system_data`: cache first, then the ESI oracle,
memoizing a successful ESI answer; a failure leaves the cache untouched and
returns `none`. -/
def fetchSystemData (esi : Int → Option SysData) (cache : SysCache) (i : Int) :
    Option SysData × SysCache :=
  match cache.lookup i with
  | some d => (some d, cache)
  | none =>
    match esi i with
    | some d => (some d, (i, d) :: cache)
    | none => (none, cache)

/-- The mutable state of the BFS loop in `get_local_map`. -/
structure BfsState where
  map : List (Int × MapEntry)
  queue : List (Int × Nat)
  visited : List Int
  cache : SysCache
  updated : Bool
  deriving Repr

/-- The inner neighbour-expansion `for` loop of `get_local_map` (lines
142-145): enqueue each unvisited neighbour at distance `d + 1`, marking it
visited at enqueue time. -/
def expandNbrs (nbrs : List Int) (d : Nat) (st : BfsState) : BfsState :=
  nbrs.foldl
    (fun s w =>
      if w ∈ s.visited then s
      else { s with queue := s.queue ++ [(w, d + 1)], visited := w :: s.visited })
    st

/-- The `while queue` loop of `get_local_map`, on fuel.  A popped node whose
fetch fails is skipped (no entry, no expansion); a successful fetch sets the
`cache_updated` flag, records the map entry, and expands when `d < maxJumps`.
Python's `list(set(stargates + bridges))` is modelled as `List.dedup` (the
set's iteration order is unspecified; only membership matters downstream). -/
def bfsLoop (esi : Int → Option SysData) (jb : Int → List Int) (cx cz : Int)
    (maxJumps : Nat) : Nat → BfsState → Option BfsState
  | 0, st =>
    match st.queue with
    | [] => some st
    | _ :: _ => none
  | fuel + 1, st =>
    match st.queue with
    | [] => some st
    | (u, d) :: rest =>
      match fetchSystemData esi st.cache u with
      | (none, c1) =>
        bfsLoop esi jb cx cz maxJumps fuel
          { st with queue := rest, cache := c1 }
      | (some dta, c1) =>
        let stargates := dta.connections
        let bridges := jb u
        let allNbrs := (stargates ++ bridges).dedup
        let entry : MapEntry :=
          { name := dta.name, jumps := d, xRel := dta.x - cx, zRel := dta.z - cz,
            stargates := stargates, jumpBridges := bridges }
        let st1 : BfsState :=
          { map := (u, entry) :: st.map, queue := rest, visited := st.visited,
            cache := c1, updated := true }
        let st2 := if d < maxJumps then expandNbrs allNbrs d st1 else st1
        bfsLoop esi jb cx cz maxJumps fuel st2

/-- The injected collaborators of one `get_local_map` pass: the ESI oracle,
the jump-bridge manager (`fun _ => []` when absent) and the initial durable
cache. -/
structure MapCtx where
  esi : Int → Option SysData
  jb : Int → List Int
  cache0 : SysCache

/-- The ground-truth data of a node: what `_fetch_system_data` yields on first
contact (initial cache first, then ESI). -/
def MapCtx.dataOf (ctx : MapCtx) (v : Int) : Option SysData :=
  match ctx.cache0.lookup v with
  | some d => some d
  | none => ctx.esi v

/-- Whether the node-data fetch of `v` succeeds. -/
def MapCtx.fetchOk (ctx : MapCtx) (v : Int) : Bool := (ctx.dataOf v).isSome

/-- The combined (deduplicated) neighbour list of a fetchable node: static
stargate edges plus declared bridge edges. -/
def MapCtx.nbrs (ctx : MapCtx) (v : Int) : List Int :=
  match ctx.dataOf v with
  | some d => (d.connections ++ ctx.jb v).dedup
  | none => []

/-- `Cartographer.get_local_map`: fetch the center (aborting to an empty map
on failure without saving), then run the BFS.  Returns the local map, the
final in-memory cache and the `cache_updated` flag (the pass calls
`_save_cache`, once, at the end, exactly when this flag is true). -/
def getLocalMap (ctx : MapCtx) (center : Int) (maxJumps : Nat) (fuel : Nat) :
    Option (List (Int × MapEntry) × SysCache × Bool) :=
  match fetchSystemData ctx.esi ctx.cache0 center with
  | (none, _) => some ([], ctx.cache0, false)
  | (some cd, c1) =>
    (bfsLoop ctx.esi ctx.jb cd.x cd.z maxJumps fuel
        { map := [], queue := [(center, 0)], visited := [center], cache := c1,
          updated := false }).map
      (fun st => (st.map, st.cache, st.updated))

/-- A path of `k` hops from `c` whose every interior node (all but possibly
the endpoint) has a successful fetch, stepping along the union of static and
bridge edges. -/
inductive SPath (ctx : MapCtx) (c : Int) : Int → Nat → Prop where
  | zero : SPath ctx c c 0
  | succ {u v : Int} {k : Nat} :
      SPath ctx c u k → ctx.fetchOk u = true → v ∈ ctx.nbrs u →
      SPath ctx c v (k + 1)

/-- The BFS loop invariant, minus the expansion and queue-shape clauses
(which are weakened mid-iteration). -/
structure BfsInvCore (ctx : MapCtx) (c : Int) (N : Nat) (st : BfsState) : Prop where
  cacheOk : ∀ v d, st.cache.lookup v = some d → ctx.dataOf v = some d
  cacheSub : ∀ v d, ctx.cache0.lookup v = some d → st.cache.lookup v = some d
  centerVis : c ∈ st.visited
  qVis : ∀ p ∈ st.queue, p.1 ∈ st.visited
  qSound : ∀ p ∈ st.queue, SPath ctx c p.1 p.2 ∧ p.2 ≤ N
  qOpt : ∀ p ∈ st.queue, ∀ k, SPath ctx c p.1 k → p.2 ≤ k
  mapSound : ∀ v e, st.map.lookup v = some e →
    ctx.fetchOk v = true ∧ e.jumps ≤ N ∧ SPath ctx c v e.jumps
  mapOpt : ∀ v e, st.map.lookup v = some e → ∀ k, SPath ctx c v k → e.jumps ≤ k
  visProc : ∀ v ∈ st.visited,
    (∃ d, (v, d) ∈ st.queue) ∨ (∃ e, st.map.lookup v = some e) ∨ ctx.fetchOk v = false

/-- Every processed node shallower than the radius has had all its neighbours
visited. -/
def Expanded (ctx : MapCtx) (N : Nat) (st : BfsState) : Prop :=
  ∀ v e, st.map.lookup v = some e → e.jumps < N →
    ∀ w, w ∈ ctx.nbrs v → w ∈ st.visited

/-- Mid-expansion weakening of `Expanded`: the node `u` being expanded may
still have the suffix `pending` of its neighbours unvisited. -/
def ExpandedExcept (ctx : MapCtx) (N : Nat) (u : Int) (pending : List Int)
    (st : BfsState) : Prop :=
  ∀ v e, st.map.lookup v = some e → e.jumps < N →
    ∀ w, w ∈ ctx.nbrs v → w ∈ st.visited ∨ (v = u ∧ w ∈ pending)

/-- The BFS queue always consists of a block of entries at some depth `D`
followed by a block at depth `D + 1`. -/
def QShape (queue : List (Int × Nat)) : Prop :=
  ∃ D as bs, queue = as ++ bs ∧ (∀ p ∈ as, p.2 = D) ∧ (∀ p ∈ bs, p.2 = D + 1)

/-- `QShape` anchored at a concrete front depth `d`. -/
def QShapeAt (queue : List (Int × Nat)) (d : Nat) : Prop :=
  ∃ as bs, queue = as ++ bs ∧ (∀ p ∈ as, p.2 = d) ∧ (∀ p ∈ bs, p.2 = d + 1)

/-- A concrete two-node universe: node 1 links statically to node 2. -/
def esiW2 : Int → Option SysData := fun i =>
  if i = 1 then some ⟨"Alpha", 0, 0, [2]⟩
  else if i = 2 then some ⟨"Beta", 1, 1, []⟩
  else none

/-- Concrete collaborators for the two-node universe: no bridges, empty
initial cache. -/
def ctxW2 : MapCtx := ⟨esiW2, fun _ => [], []⟩

/-- Concrete collaborators in which the only node, 1, is already in the
durable cache and ESI is unreachable. -/
def ctxW5 : MapCtx := ⟨fun _ => none, fun _ => [], [(1, ⟨"Alpha", 0, 0, []⟩)]⟩

/-- Concrete collaborators in which node 2 is cached but the center, 1, is
not fetchable at all. -/
def ctxW10 : MapCtx := ⟨fun _ => none, fun _ => [], [(2, ⟨"Beta", 1, 1, []⟩)]⟩

/-! ## intel_parser.py — `IntelParser`

`LOG_PATTERN` is the anchored Python regex
`^\\[\\s+(.*?)\\s+\\]\\s+(.*?)\\s+>\\s+(.*)$`, applied with `re.match` to the
stripped line.  The matcher below is a direct operational translation with
Python's backtracking order: `\\s+` is greedy (longest first), `(.*?)` is lazy
(shortest first), `.` never matches a newline, and after `strip()` the
trailing-newline case of `$` cannot arise.  Whitespace (`\\s`, `str.strip`,
`str.split`) is modelled over the ASCII whitespace characters; the log lines
the claims quantify over are ASCII-whitespace-delimited. -/

/-- Python ASCII whitespace (the characters matched by `\\s`, `str.strip` and
`str.split`). -/
def isPySpace (c : Char) : Bool :=
  c = ' ' || c = '\t' || c = '\n' || c = '\r' || c = '\x0b' || c = '\x0c'

/-- Python `str.strip()`: drop leading and trailing whitespace. -/
def stripChars (cs : List Char) : List Char :=
  ((cs.dropWhile isPySpace).reverse.dropWhile isPySpace).reverse

/-- Greedy `\\s*` with backtracking: try consuming more whitespace first,
falling back to stopping here, then pass the remainder to the continuation. -/
def wsStarG {α : Type} (k : List Char → Option α) : List Char → Option α
  | [] => k []
  | c :: cs => if isPySpace c then (wsStarG k cs) <|> k (c :: cs) else k (c :: cs)

/-- Greedy `\\s+`: one mandatory whitespace character, then greedy `\\s*`. -/
def wsPlusG {α : Type} (k : List Char → Option α) : List Char → Option α
  | [] => none
  | c :: cs => if isPySpace c then wsStarG k cs else none

/-- Lazy `(.*?)` (dot excludes newline): try the continuation on the empty
group first, extending one character at a time on failure.  The continuation
receives the captured group and the remainder. -/
def dotStarL {α : Type} (k : List Char → List Char → Option α) :
    List Char → List Char → Option α
  | acc, [] => k acc.reverse []
  | acc, c :: cs =>
    (k acc.reverse (c :: cs)) <|>
      (if c = '\n' then none else dotStarL k (c :: acc) cs)

/-- `IntelParser.LOG_PATTERN.match(raw_line.strip())`, returning the three
captured groups `(timestamp, author, message)`. -/
def logMatch (s : String) : Option (String × String × String) :=
  match stripChars s.data with
  | [] => none
  | c0 :: r1 =>
    if c0 = '[' then
      wsPlusG (fun r2 =>
        dotStarL (fun tGroup r3 =>
          wsPlusG (fun r4 =>
            match r4 with
            | [] => none
            | c1 :: r5 =>
              if c1 = ']' then
                wsPlusG (fun r6 =>
                  dotStarL (fun aGroup r7 =>
                    wsPlusG (fun r8 =>
                      match r8 with
                      | [] => none
                      | c2 :: r9 =>
                        if c2 = '>' then
                          wsPlusG (fun r10 =>
                            if r10.contains '\n' then none
                            else some (String.mk tGroup, String.mk aGroup, String.mk r10)) r9
                        else none) r7) [] r6) r5
              else none) r3) [] r2) r1
    else none

/-- Python `str.split()` (no separator): whitespace-run-separated words,
empties discarded. -/
def splitWsAux : List Char → List Char → List String
  | acc, [] => if acc.isEmpty then [] else [String.mk acc.reverse]
  | acc, c :: cs =>
    if isPySpace c then
      if acc.isEmpty then splitWsAux [] cs
      else String.mk acc.reverse :: splitWsAux [] cs
    else splitWsAux (c :: acc) cs

/-- Python `message.split()`. -/
def pySplit (s : String) : List String := splitWsAux [] s.data

/-- Substring test on character lists (Python `needle in haystack`). -/
def infixOfCL (pat : List Char) : List Char → Bool
  | [] => pat.isEmpty
  | c :: cs => pat.isPrefixOf (c :: cs) || infixOfCL pat cs

/-- The status detection of `parse_line` (lines 37-42): default `hostile`,
`clear` on a whole-word `clr`/`clear`, else `no_vis` on a whole-word `nv` or
the phrase `no vis` anywhere in the lowercased message. -/
def statusOf (message : String) : String :=
  let msgLower := pyLower message
  let toks := pySplit msgLower
  if toks.contains "clr" || toks.contains "clear" then "clear"
  else if toks.contains "nv" || infixOfCL ("no vis".data) msgLower.data then "no_vis"
  else "hostile"

/-- The parsed intel record.  The `system` and `dscan` detections of
`parse_line` are independent of every claim here and are not modelled; the
fields carried are the ones the claims quantify over. -/
structure IntelRecord where
  timestamp : String
  author : String
  status : String
  rawMessage : String
  deriving DecidableEq, Repr

/-- `IntelParser.parse_line`: `None` unless the envelope pattern matches; on
a match, the record fields are the captured groups and the derived status. -/
def parseLine (s : String) : Option IntelRecord :=
  (logMatch s).map fun g => ⟨g.1, g.2.1, statusOf g.2.2, g.2.2⟩

/-- A nonempty all-whitespace run. -/
def IsWsRun (w : List Char) : Prop := w ≠ [] ∧ ∀ c ∈ w, isPySpace c = true

/-- No newline occurs in the chunk (regex `.` cannot cross one). -/
def NoNl (t : List Char) : Prop := ∀ c ∈ t, c ≠ '\n'

/-- The declarative reading of the envelope pattern
`[ <timestamp> ] <author> > <message>`: the stripped line decomposes as
`[`, whitespace, the timestamp text, whitespace, `]`, whitespace, the author
text, whitespace, `>`, whitespace, the message — with no newline inside any
captured group. -/
def EnvDecomp (cs T A M : List Char) : Prop :=
  ∃ w1 w2 w3 w4 w5, IsWsRun w1 ∧ IsWsRun w2 ∧ IsWsRun w3 ∧ IsWsRun w4 ∧ IsWsRun w5 ∧
    NoNl T ∧ NoNl A ∧ NoNl M ∧
    cs = '[' :: (w1 ++ T ++ w2 ++ ']' :: (w3 ++ A ++ w4 ++ '>' :: (w5 ++ M)))

/-- The line `s`, after trimming, matches the envelope pattern with timestamp
text `T`, author text `A` and message text `M`. -/
def EnvelopeMatch (s T A M : String) : Prop :=
  EnvDecomp (stripChars s.data) T.data A.data M.data

/-! ## intel_tailer.py — `IntelTailer`

The filesystem is abstracted by two oracles: `latest` (the result of
`_find_latest_log_for_channel`, `none` when no file matches) and `openF`
(whether opening a path succeeds).  An open handle carries its path, an
open/closed flag (Python file objects raise `ValueError` on `readline` after
`close`), and the lines pending past the seek position (empty right after
open, since the tailer seeks to end of file). -/

/-- One entry of `self.active_log_files`. -/
structure TailEntry where
  path : String
  openHandle : Bool
  pending : List String
  deriving DecidableEq, Repr

/-- In-place dict update keyed by channel (`self.active_log_files[channel] = …`). -/
def setEntry : List (String × TailEntry) → String → TailEntry → List (String × TailEntry)
  | [], k, v => [(k, v)]
  | (k2, v2) :: rest, k, v =>
    if k2 = k then (k, v) :: rest else (k2, v2) :: setEntry rest k v

/-- The body of `_refresh_file_handles` for one channel: when the freshest
file differs from the tracked one, the old handle is closed first, then the
new file is opened; an open failure is caught and leaves the (now closed)
entry registered.  A channel with no entry and a failing open stays absent. -/
def refreshChannel (latest : String → Option String) (openF : String → Option Unit)
    (active : List (String × TailEntry)) (ch : String) : List (String × TailEntry) :=
  match latest ch with
  | none => active
  | some lf =>
    match active.lookup ch with
    | some e =>
      if e.path = lf then active
      else
        let closed := setEntry active ch { e with openHandle := false }
        match openF lf with
        | some _ => setEntry closed ch ⟨lf, true, []⟩
        | none => closed
    | none =>
      match openF lf with
      | some _ => setEntry active ch ⟨lf, true, []⟩
      | none => active

/-- `IntelTailer._refresh_file_handles`: one discovery pass over the watched
channels. -/
def refreshFileHandles (latest : String → Option String) (openF : String → Option Unit)
    (channels : List String) (active : List (String × TailEntry)) :
    List (String × TailEntry) :=
  channels.foldl (refreshChannel latest openF) active

/-- One read sweep of the `watch` loop over the registered handles
(lines 90-101): drain every handle's new lines; calling `readline` on a
closed handle raises `ValueError`, which the loop does not catch
(only `KeyboardInterrupt` is), so it aborts the whole pass. -/
def readPass : List (String × TailEntry) → Except String (List (String × TailEntry) × List String)
  | [] => .ok ([], [])
  | (ch, e) :: rest =>
    if e.openHandle then
      match readPass rest with
      | .ok (rest2, lines) => .ok ((ch, { e with pending := [] }) :: rest2, e.pending ++ lines)
      | .error msg => .error msg
    else .error "ValueError: I/O operation on closed file"

/-- A concrete discovery oracle: channel alpha has rotated to `a2.txt`,
channel beta still points at `b1.txt`. -/
def latestW : String → Option String := fun ch =>
  if ch = "alpha" then some "a2.txt" else if ch = "beta" then some "b1.txt" else none

/-- A concrete open oracle under which the rotated file `a2.txt` cannot be
opened. -/
def openFW : String → Option Unit := fun p => if p = "a2.txt" then none else some ()

/-- The tailer state before the failing discovery pass: both channels hold
open handles. -/
def activeW : List (String × TailEntry) :=
  [("alpha", ⟨"a1.txt", true, []⟩), ("beta", ⟨"b1.txt", true, []⟩)]

end RadLocal

namespace RadLocal

/-! ## Theorems -/

/-! ### C7 — bridge symmetry -/

theorem updateFn_apply (br : Int → List Int) (k : Int) (v : List Int) (x : Int) :
    updateFn br k v x = if x = k then v else br x := rfl

theorem mem_addBridge_left (br : Int → List Int) (a b j : Int) :
    j ∈ addBridge br a b a ↔ j ∈ br a ∨ j = b := by
  simp only [addBridge]
  split_ifs <;>
    (try simp only [updateFn_apply]) <;>
      (try split_ifs) <;> subst_vars <;>
        (try simp_all [updateFn_apply, List.mem_append]) <;> (try tauto)

theorem mem_addBridge_right (br : Int → List Int) (a b j : Int) :
    j ∈ addBridge br a b b ↔ j ∈ br b ∨ j = a := by
  simp only [addBridge]
  split_ifs <;>
    (try simp only [updateFn_apply]) <;>
      (try split_ifs) <;> subst_vars <;>
        (try simp_all [updateFn_apply, List.mem_append]) <;> (try tauto)

theorem mem_addBridge_other (br : Int → List Int) {a b i : Int} (j : Int)
    (hia : i ≠ a) (hib : i ≠ b) : j ∈ addBridge br a b i ↔ j ∈ br i := by
  simp only [addBridge]
  split_ifs <;>
    (try simp only [updateFn_apply]) <;>
      (try split_ifs) <;> subst_vars <;>
        (try simp_all [updateFn_apply, List.mem_append]) <;> (try tauto)

theorem mem_addBridge (br : Int → List Int) (a b i j : Int) :
    j ∈ addBridge br a b i ↔ j ∈ br i ∨ (i = a ∧ j = b) ∨ (i = b ∧ j = a) := by
  by_cases hia : i = a
  · subst hia
    rw [mem_addBridge_left]
    constructor
    · rintro (h | rfl) <;> tauto
    · rintro (h | ⟨-, rfl⟩ | ⟨rfl, rfl⟩) <;> tauto
  · by_cases hib : i = b
    · subst hib
      rw [mem_addBridge_right]
      constructor
      · rintro (h | rfl) <;> tauto
      · rintro (h | ⟨rfl, rfl⟩ | ⟨-, rfl⟩) <;> tauto
    · rw [mem_addBridge_other br j hia hib]
      constructor
      · exact Or.inl
      · rintro (h | ⟨rfl, rfl⟩ | ⟨rfl, rfl⟩) <;> tauto

theorem nodup_addBridge {br : Int → List Int} (hnd : ∀ i, (br i).Nodup) (a b i : Int) :
    (addBridge br a b i).Nodup := by
  simp only [addBridge]
  split_ifs <;>
    (try simp only [updateFn_apply]) <;>
      (try split_ifs) <;> subst_vars <;>
        first
          | exact hnd _
          | simp_all [updateFn_apply, List.nodup_append, List.mem_append]

theorem mem_removeBridge_left {br : Int → List Int} (hnd : ∀ i, (br i).Nodup)
    (a b j : Int) : j ∈ removeBridge br a b a ↔ j ∈ br a ∧ j ≠ b := by
  simp only [removeBridge]
  split_ifs <;>
    (try simp only [updateFn_apply]) <;>
      (try split_ifs) <;> subst_vars <;>
        (try simp_all [updateFn_apply, List.Nodup.mem_erase_iff, hnd, List.Nodup.erase]) <;>
          (try tauto) <;>
            (intro hj hjb; subst hjb; simp_all)

theorem mem_removeBridge_right {br : Int → List Int} (hnd : ∀ i, (br i).Nodup)
    (a b j : Int) : j ∈ removeBridge br a b b ↔ j ∈ br b ∧ j ≠ a := by
  simp only [removeBridge]
  split_ifs <;>
    (try simp only [updateFn_apply]) <;>
      (try split_ifs) <;> subst_vars <;>
        (try simp_all [updateFn_apply, List.Nodup.mem_erase_iff, hnd, List.Nodup.erase]) <;>
          (try tauto) <;>
            (intro hj hja; subst hja; simp_all)

theorem mem_removeBridge_other (br : Int → List Int) {a b i : Int} (j : Int)
    (hia : i ≠ a) (hib : i ≠ b) : j ∈ removeBridge br a b i ↔ j ∈ br i := by
  simp only [removeBridge]
  split_ifs <;>
    (try simp only [updateFn_apply]) <;>
      (try split_ifs) <;> subst_vars <;>
        first
          | rfl
          | tauto
          | simp_all [updateFn_apply]

theorem mem_removeBridge {br : Int → List Int} (hnd : ∀ i, (br i).Nodup) (a b i j : Int) :
    j ∈ removeBridge br a b i ↔ j ∈ br i ∧ ¬(i = a ∧ j = b) ∧ ¬(i = b ∧ j = a) := by
  by_cases hia : i = a
  · subst hia
    rw [mem_removeBridge_left hnd]
    by_cases hib : i = b
    · subst hib; tauto
    · constructor
      · rintro ⟨h, hne⟩; tauto
      · rintro ⟨h, h2, h3⟩
        exact ⟨h, fun hjb => h2 ⟨rfl, hjb⟩⟩
  · by_cases hib : i = b
    · subst hib
      rw [mem_removeBridge_right hnd]
      constructor
      · rintro ⟨h, hne⟩
        exact ⟨h, fun hc => hia hc.1, fun hc => hne hc.2⟩
      · rintro ⟨h, h2, h3⟩
        exact ⟨h, fun hja => h3 ⟨rfl, hja⟩⟩
    · rw [mem_removeBridge_other br j hia hib]
      constructor
      · intro h
        exact ⟨h, fun hc => hia hc.1, fun hc => hib hc.1⟩
      · exact And.left

theorem nodup_removeBridge {br : Int → List Int} (hnd : ∀ i, (br i).Nodup) (a b i : Int) :
    (removeBridge br a b i).Nodup := by
  simp only [removeBridge]
  split_ifs <;>
    (try simp only [updateFn_apply]) <;>
      (try split_ifs) <;>
        first
          | exact hnd i
          | exact (hnd _).erase _
          | exact ((hnd _).erase _).erase _

theorem addBridge_wf {br : Int → List Int} (h : WfBr br) (a b : Int) :
    WfBr (addBridge br a b) := by
  refine ⟨nodup_addBridge h.1 a b, fun i j => ?_⟩
  rw [mem_addBridge, mem_addBridge, h.2 i j]
  tauto

theorem removeBridge_wf {br : Int → List Int} (h : WfBr br) (a b : Int) :
    WfBr (removeBridge br a b) := by
  refine ⟨nodup_removeBridge h.1 a b, fun i j => ?_⟩
  rw [mem_removeBridge h.1, mem_removeBridge h.1, h.2 i j]
  tauto

theorem reachableBr_wf {br : Int → List Int} (h : ReachableBr br) : WfBr br := by
  induction h with
  | init =>
    exact ⟨fun _ => List.nodup_nil, fun i j => by simp⟩
  | add br a b _ ih => exact addBridge_wf ih a b
  | remove br a b _ ih => exact removeBridge_wf ih a b

/-- C7: in every bridge-store state reachable by a sequence of
`add_bridge` / `remove_bridge` operations, `add_bridge(A,B)` makes
`get_bridges(A)` contain B and `get_bridges(B)` contain A; `remove_bridge(A,B)`
makes neither contain the other; and the stored relation is symmetric after
every operation. -/
theorem bridge_symmetry {br : Int → List Int} (h : ReachableBr br) (A B : Int) :
    (B ∈ getBridges (addBridge br A B) A ∧ A ∈ getBridges (addBridge br A B) B) ∧
    (B ∉ getBridges (removeBridge br A B) A ∧ A ∉ getBridges (removeBridge br A B) B) ∧
    (∀ i j, i ∈ getBridges (addBridge br A B) j ↔ j ∈ getBridges (addBridge br A B) i) ∧
    (∀ i j, i ∈ getBridges (removeBridge br A B) j ↔ j ∈ getBridges (removeBridge br A B) i) := by
  have hwf := reachableBr_wf h
  refine ⟨⟨?_, ?_⟩, ⟨?_, ?_⟩, (addBridge_wf hwf A B).2, (removeBridge_wf hwf A B).2⟩
  · rw [getBridges, mem_addBridge]; tauto
  · rw [getBridges, mem_addBridge]; tauto
  · rw [getBridges, mem_removeBridge hwf.1]; tauto
  · rw [getBridges, mem_removeBridge hwf.1]; tauto

/-- C7 witness: the theorem applied to the concrete empty store and nodes 30002888
and 30000142. -/
theorem bridge_symmetry_witness :
    (30000142 : Int) ∈ getBridges (addBridge (fun _ => []) 30002888 30000142) 30002888 :=
  (bridge_symmetry ReachableBr.init 30002888 30000142).1.1

/-! ### C3 — alert cooldown -/

theorem processThreat_pass {st : AudioState} {key : String} {j : Int} {now : Nat}
    (hj : j < 10)
    (hcd : ¬ (now - ((st.cooldown.lookup key).getD 0) < 30)) :
    (processThreat st key j false now).cooldown = (key, now) :: st.cooldown ∧
    ((processThreat st key j false now).queue.length
      = if 0 ≤ j ∧ j < 10 then st.queue.length + 1 else st.queue.length) := by
  unfold processThreat
  rw [if_neg (by simp), if_neg (by omega), if_neg hcd]
  by_cases h0 : j = 0
  · subst h0
    simp
  · rw [if_neg h0]
    by_cases h1 : 1 ≤ j ∧ j ≤ 4
    · rw [if_pos h1]
      constructor
      · rfl
      · rw [if_pos (by omega)]
        simp
    · rw [if_neg h1]
      by_cases h2 : 5 ≤ j ∧ j ≤ 9
      · rw [if_pos h2]
        constructor
        · rfl
        · rw [if_pos (by omega)]
          simp
      · rw [if_neg h2]
        constructor
        · rfl
        · rw [if_neg (by omega)]

theorem processThreat_drop {st : AudioState} {key : String} {j : Int} {now : Nat}
    (hj : j < 10)
    (hcd : now - ((st.cooldown.lookup key).getD 0) < 30) :
    processThreat st key j false now = st := by
  unfold processThreat
  rw [if_neg (by simp), if_neg (by omega), if_pos hcd]

/-- C3: for a location key not yet on cooldown, two non-friendly `process_threat`
calls with hop distance below 10 enqueue exactly one instruction when the second
call is less than 30 seconds after the first, and exactly two when they are 31 or
more seconds apart; moreover every call that passes the friendly, range and
cooldown filters writes the current time into the cooldown cache for that key,
whether or not the event falls into a priority tier. -/
theorem audio_cooldown_spec (st : AudioState) (key : String) (j1 j2 : Int) (t1 t2 : Nat)
    (hfresh : st.cooldown.lookup key = none) (ht1 : 30 ≤ t1) (h12 : t1 ≤ t2)
    (hj1l : 0 ≤ j1) (hj1u : j1 < 10) (hj2l : 0 ≤ j2) (hj2u : j2 < 10) :
    (t2 - t1 < 30 →
      (processThreat (processThreat st key j1 false t1) key j2 false t2).queue.length
        = st.queue.length + 1) ∧
    (31 ≤ t2 - t1 →
      (processThreat (processThreat st key j1 false t1) key j2 false t2).queue.length
        = st.queue.length + 2) ∧
    (∀ (st' : AudioState) (j : Int) (now : Nat), j < 10 →
      ¬ (now - ((st'.cooldown.lookup key).getD 0) < 30) →
      (processThreat st' key j false now).cooldown.lookup key = some now) := by
  have hpass1 := @processThreat_pass st key j1 t1
    hj1u (by rw [hfresh]; simp; omega)
  refine ⟨?_, ?_, ?_⟩
  · intro hlt
    rw [processThreat_drop hj2u ?_, hpass1.2, if_pos ⟨hj1l, hj1u⟩]
    rw [hpass1.1]
    simp [List.lookup]
    omega
  · intro hge
    have hpass2 := @processThreat_pass (processThreat st key j1 false t1)
      key j2 t2 hj2u ?_
    · rw [hpass2.2, if_pos ⟨hj2l, hj2u⟩, hpass1.2, if_pos ⟨hj1l, hj1u⟩]
    · rw [hpass1.1]
      simp [List.lookup]
      omega
  · intro st' j now hj hcd
    rw [(processThreat_pass hj hcd).1]
    simp [List.lookup]

/-- C3 witness: the theorem applied to a fresh dispatcher and concrete times
100, 120 (within cooldown) giving a single queued instruction. -/
theorem audio_cooldown_spec_witness :
    (processThreat (processThreat ⟨[], []⟩ "Deklein" 0 false 100) "Deklein" 0 false 120).queue.length
      = 1 :=
  (audio_cooldown_spec ⟨[], []⟩ "Deklein" 0 0 100 120 rfl (by omega) (by omega)
    (by omega) (by omega) (by omega) (by omega)).1 (by omega)


/-! ### C1 — threat-cache TTL -/

theorem lookup_mem {α β : Type} [BEq α] [LawfulBEq α] {l : List (α × β)} {k : α} {v : β}
    (h : l.lookup k = some v) : (k, v) ∈ l := by
  induction l with
  | nil => simp [List.lookup] at h
  | cons p rest ih =>
    cases hbe : (k == p.1) with
    | false =>
      simp only [List.lookup, hbe] at h
      exact List.mem_cons_of_mem _ (ih h)
    | true =>
      simp only [List.lookup, hbe] at h
      injection h with h2
      subst h2
      have hk : k = p.1 := eq_of_beq hbe
      rw [hk, Prod.mk.eta]
      exact List.mem_cons_self p rest

/-- C1 counterexample: a hostile entry fetched at 999000 and loaded at
1000000 is still returned verbatim by a `profile_player` call at 1090000,
91000 seconds (more than 25 hours) after it was fetched, even though the
pipeline would have produced a different answer — so an entry whose
`fetchedAt` is more than 24 hours in the past is not treated as absent by
the next `profile` call. -/
theorem profile_ttl_counterexample :
    86400 < 1090000 - 999000 ∧
    (profilePlayer failCol none (loadThreatCache storedC1 1000000) "Bob" 1090000).1
      = "Sabre - Perfil: BOMBER" ∧
    (profilePlayer failCol none [] "Bob" 1090000).1 = "NO ENCONTRADO" :=
  ⟨by omega, by decide, by decide⟩

/-- C1 amended: the 24-hour TTL is enforced only when the cache is loaded at
profiler construction — `_load_cache` drops every entry (friendly or hostile
alike) whose age at load time is 86400 seconds or more — while a `profile`
call on a live instance returns any in-memory entry without any age check. -/
theorem profile_ttl_amended :
    (∀ (stored : List (String × ThreatEntry)) (now : Nat) (key : String) (e : ThreatEntry),
        (loadThreatCache stored now).lookup key = some e → now - e.timestamp < 86400) ∧
    (∀ (col : EsiCollab) (my : Option Int) (cache : List (String × ThreatEntry))
        (name : String) (now : Nat) (e : ThreatEntry),
        cache.lookup (pyLower name) = some e →
        profilePlayer col my cache name now = (renderCachedProfile e, cache)) := by
  constructor
  · intro stored now key e h
    have hmem := lookup_mem h
    rw [loadThreatCache] at hmem
    have := List.of_mem_filter hmem
    simpa using this
  · intro col my cache name now e h
    simp only [profilePlayer, h]

/-- C1 amended, witness: a fresh load at time 1090000 drops the stale entry,
and a cache hit is returned verbatim. -/
theorem profile_ttl_amended_witness :
    (((loadThreatCache storedC1 1000000).lookup "bob" = some (.hostile 999000 "Sabre" "BOMBER")) ∧
      1000000 - (ThreatEntry.hostile 999000 "Sabre" "BOMBER").timestamp < 86400) ∧
    ((storedC1.lookup (pyLower "Bob") = some (.hostile 999000 "Sabre" "BOMBER")) ∧
      profilePlayer failCol none storedC1 "Bob" 5 =
        (renderCachedProfile (.hostile 999000 "Sabre" "BOMBER"), storedC1)) :=
  ⟨⟨by decide, profile_ttl_amended.1 storedC1 1000000 "bob" _ (by decide)⟩,
   ⟨by decide, profile_ttl_amended.2 failCol none storedC1 "Bob" 5 _ (by decide)⟩⟩

/-! ### C8 — threat classification tags -/

/-- C8: with top ships `Sabre` and `Flycatcher` (both interdictors), the tag
string produced by `_analyze_threat_profile` contains the
`TACKLE/INTERDICTOR` role tag twice — the dedup guard tests the literal
`"TACKLE"`, which is never the appended value — contradicting the claim that
each of the four role tags appears at most once. -/
theorem analyze_duplicate_tackle_tag :
    analyzeThreatProfile
        (some { topLists := some [⟨"shipType", [⟨"Sabre"⟩, ⟨"Flycatcher"⟩]⟩], danger := 0 })
      = ("Sabre", "TACKLE/INTERDICTOR | TACKLE/INTERDICTOR") := by
  decide


/-! ### C2/C5/C10 — the BFS of `get_local_map` -/

theorem lookup_cons_self {α β : Type} [BEq α] [LawfulBEq α] (l : List (α × β)) (k : α) (v : β) :
    List.lookup k ((k, v) :: l) = some v := by
  simp [List.lookup]

theorem lookup_cons_ne {α β : Type} [BEq α] [LawfulBEq α] (l : List (α × β)) {k a : α} (v : β)
    (h : k ≠ a) : List.lookup k ((a, v) :: l) = List.lookup k l := by
  have hb : (k == a) = false := beq_false_of_ne h
  simp [List.lookup, hb]

theorem fetch_spec (ctx : MapCtx) {cache : SysCache}
    (hOk : ∀ v d, cache.lookup v = some d → ctx.dataOf v = some d)
    (hSub : ∀ v d, ctx.cache0.lookup v = some d → cache.lookup v = some d)
    (u : Int) :
    (fetchSystemData ctx.esi cache u).1 = ctx.dataOf u ∧
    (∀ v d, (fetchSystemData ctx.esi cache u).2.lookup v = some d → ctx.dataOf v = some d) ∧
    (∀ v d, ctx.cache0.lookup v = some d →
      (fetchSystemData ctx.esi cache u).2.lookup v = some d) := by
  cases hc : cache.lookup u with
  | some d =>
    simp only [fetchSystemData, hc]
    exact ⟨(hOk u d hc).symm, hOk, hSub⟩
  | none =>
    have hc0 : ctx.cache0.lookup u = none := by
      cases h0 : ctx.cache0.lookup u with
      | none => rfl
      | some d0 => rw [hSub u d0 h0] at hc; cases hc
    cases he : ctx.esi u with
    | some d =>
      simp only [fetchSystemData, hc, he]
      have hdata : ctx.dataOf u = some d := by
        unfold MapCtx.dataOf
        rw [hc0, he]
      refine ⟨hdata.symm, ?_, ?_⟩
      · intro v dv hv
        by_cases hvu : v = u
        · subst hvu
          rw [lookup_cons_self] at hv
          injection hv with hv2
          subst hv2
          exact hdata
        · rw [lookup_cons_ne _ _ hvu] at hv
          exact hOk v dv hv
      · intro v dv hv
        by_cases hvu : v = u
        · subst hvu
          rw [hSub _ dv hv] at hc
          cases hc
        · rw [lookup_cons_ne _ _ hvu]
          exact hSub v dv hv
    | none =>
      simp only [fetchSystemData, hc, he]
      have hdata : ctx.dataOf u = none := by
        unfold MapCtx.dataOf
        rw [hc0, he]
      exact ⟨hdata.symm, hOk, hSub⟩

theorem spath_center_ok {ctx : MapCtx} {c v : Int} {k : Nat}
    (h : SPath ctx c v k) (hk : 0 < k) : ctx.fetchOk c = true := by
  induction h with
  | zero => omega
  | succ hp hok hmem ih =>
    rename_i u w k0
    by_cases hk0 : 0 < k0
    · exact ih hk0
    · have hz : k0 = 0 := by omega
      subst hz
      cases hp
      exact hok

theorem qShape_tail {p : Int × Nat} {queue : List (Int × Nat)}
    (h : QShape (p :: queue)) : QShape queue := by
  obtain ⟨D, as, bs, heq, ha, hb⟩ := h
  cases as with
  | nil =>
    cases bs with
    | nil => simp at heq
    | cons q bs2 =>
      simp only [List.nil_append] at heq
      injection heq with h1 h2
      exact ⟨D + 1, bs2, [], by simp [h2], fun r hr => hb r (List.mem_cons_of_mem q hr),
        by simp⟩
  | cons a as2 =>
    simp only [List.cons_append] at heq
    injection heq with h1 h2
    exact ⟨D, as2, bs, h2, fun r hr => ha r (List.mem_cons_of_mem a hr), hb⟩

theorem qShapeAt_of_cons {u : Int} {d : Nat} {queue : List (Int × Nat)}
    (h : QShape ((u, d) :: queue)) : QShapeAt queue d := by
  obtain ⟨D, as, bs, heq, ha, hb⟩ := h
  cases as with
  | nil =>
    cases bs with
    | nil => simp at heq
    | cons q bs2 =>
      simp only [List.nil_append] at heq
      injection heq with h1 h2
      have hd : d = D + 1 := by
        have := hb q (List.mem_cons_self q bs2)
        rw [← h1] at this
        exact this
      refine ⟨queue, [], by simp, ?_, by simp⟩
      intro r hr
      rw [hd]
      exact hb r (h2 ▸ List.mem_cons_of_mem q hr)
  | cons a as2 =>
    simp only [List.cons_append] at heq
    injection heq with h1 h2
    have hd : d = D := by
      have := ha a (List.mem_cons_self a as2)
      rw [← h1] at this
      exact this
    subst hd
    exact ⟨as2, bs, h2, fun r hr => ha r (List.mem_cons_of_mem a hr), hb⟩

theorem qShapeAt_append {queue : List (Int × Nat)} {d : Nat} (w : Int)
    (h : QShapeAt queue d) : QShapeAt (queue ++ [(w, d + 1)]) d := by
  obtain ⟨as, bs, heq, ha, hb⟩ := h
  refine ⟨as, bs ++ [(w, d + 1)], by rw [heq, List.append_assoc], ha, ?_⟩
  intro r hr
  rcases List.mem_append.mp hr with hr1 | hr2
  · exact hb r hr1
  · simp at hr2
    simp [hr2]

theorem qShapeAt_to_qShape {queue : List (Int × Nat)} {d : Nat}
    (h : QShapeAt queue d) : QShape queue := by
  obtain ⟨as, bs, heq, ha, hb⟩ := h
  exact ⟨d, as, bs, heq, ha, hb⟩

theorem qShapeAt_depth {queue : List (Int × Nat)} {d : Nat}
    (h : QShapeAt queue d) : ∀ p ∈ queue, d ≤ p.2 ∧ p.2 ≤ d + 1 := by
  obtain ⟨as, bs, heq, ha, hb⟩ := h
  intro p hp
  rw [heq] at hp
  rcases List.mem_append.mp hp with hp1 | hp2
  · rw [ha p hp1]
    omega
  · rw [hb p hp2]
    omega

theorem expandNbrs_nil (d : Nat) (st : BfsState) : expandNbrs [] d st = st := rfl

theorem expandNbrs_cons (w : Int) (l : List Int) (d : Nat) (st : BfsState) :
    expandNbrs (w :: l) d st =
      expandNbrs l d
        (if w ∈ st.visited then st
         else { st with queue := st.queue ++ [(w, d + 1)], visited := w :: st.visited }) := by
  unfold expandNbrs
  rw [List.foldl_cons]


theorem frontier_visited {ctx : MapCtx} {c : Int} {N : Nat} {st : BfsState}
    (inv : BfsInvCore ctx c N st) (kB : Nat)
    (hexp : ∀ v e, st.map.lookup v = some e → e.jumps < N → e.jumps < kB →
      ∀ w, w ∈ ctx.nbrs v → w ∈ st.visited) :
    ∀ k, k ≤ N → k ≤ kB → ∀ v, SPath ctx c v k →
      (∀ p ∈ st.queue, k < p.2) → v ∈ st.visited := by
  intro k
  induction k using Nat.strong_induction_on with
  | _ k ih =>
    intro hkN hkB v hpath hq
    cases hpath with
    | zero => exact inv.centerVis
    | succ hp hok hmem =>
      rename_i u k2
      have hu : u ∈ st.visited := by
        refine ih k2 (by omega) (by omega) (by omega) u hp ?_
        intro p hpq
        have := hq p hpq
        omega
      rcases inv.visProc u hu with ⟨du, hqu⟩ | ⟨eu, heu⟩ | hfail
      · have hopt := inv.qOpt (u, du) hqu k2 hp
        have := hq (u, du) hqu
        simp only at hopt this
        omega
      · have hjump := inv.mapOpt u eu heu k2 hp
        exact hexp u eu heu (by omega) (by omega) v hmem
      · rw [hok] at hfail
        cases hfail


theorem expand_fold {ctx : MapCtx} {c : Int} {N : Nat} {u : Int} {d : Nat}
    (hdN : d < N) (hfoku : ctx.fetchOk u = true) (hSPu : SPath ctx c u d) :
    ∀ (pending : List Int) (st : BfsState),
      (∀ w ∈ pending, w ∈ ctx.nbrs u) →
      BfsInvCore ctx c N st →
      ExpandedExcept ctx N u pending st →
      QShapeAt st.queue d →
      (∃ eu, st.map.lookup u = some eu ∧ eu.jumps = d) →
      BfsInvCore ctx c N (expandNbrs pending d st) ∧
        Expanded ctx N (expandNbrs pending d st) ∧
        QShape (expandNbrs pending d st).queue ∧
        (expandNbrs pending d st).map = st.map ∧
        (expandNbrs pending d st).cache = st.cache := by
  intro pending
  induction pending with
  | nil =>
    intro st hsub inv hEE hqs huL
    rw [expandNbrs_nil]
    refine ⟨inv, ?_, qShapeAt_to_qShape hqs, rfl, rfl⟩
    intro v e hle hjN w hw
    rcases hEE v e hle hjN w hw with hvis | ⟨rfl, hwp⟩
    · exact hvis
    · cases hwp
  | cons w pending ih =>
    intro st hsub inv hEE hqs huL
    rw [expandNbrs_cons]
    by_cases hwv : w ∈ st.visited
    · rw [if_pos hwv]
      refine ih _ (fun w2 hw2 => hsub w2 (List.mem_cons_of_mem w hw2)) inv ?_ hqs huL
      intro v e hle hjN w2 hw2
      rcases hEE v e hle hjN w2 hw2 with hvis | ⟨rfl, hwp⟩
      · exact Or.inl hvis
      · rcases List.mem_cons.mp hwp with rfl | hmem2
        · exact Or.inl hwv
        · exact Or.inr ⟨rfl, hmem2⟩
    · rw [if_neg hwv]
      have hexp : ∀ v e, st.map.lookup v = some e → e.jumps < N → e.jumps < d →
          ∀ w2, w2 ∈ ctx.nbrs v → w2 ∈ st.visited := by
        intro v e hle hjN hjd w2 hw2
        rcases hEE v e hle hjN w2 hw2 with hvis | ⟨rfl, hwp⟩
        · exact hvis
        · obtain ⟨eu, heu, hej⟩ := huL
          rw [heu] at hle
          injection hle with h3
          rw [h3] at hej
          exact absurd hej (by omega)
      have hwnot : ∀ k, k ≤ d → ¬ SPath ctx c w k := by
        intro k hk hpath
        rcases Nat.lt_or_ge k d with hlt | hge
        · exact hwv (frontier_visited inv d hexp k (by omega) (by omega) w hpath
            (fun p hp => by have := (qShapeAt_depth hqs p hp).1; omega))
        · have hkd : k = d := by omega
          cases hpath with
          | zero => exact hwv inv.centerVis
          | succ hp2 hok2 hmem2 =>
            rename_i u2 k2
            have hu2 : u2 ∈ st.visited :=
              frontier_visited inv d hexp k2 (by omega) (by omega) u2 hp2
                (fun p hp => by have := (qShapeAt_depth hqs p hp).1; omega)
            rcases inv.visProc u2 hu2 with ⟨du2, hqu2⟩ | ⟨e2, he2⟩ | hfail2
            · have hopt2 := inv.qOpt (u2, du2) hqu2 k2 hp2
              have hdep := (qShapeAt_depth hqs (u2, du2) hqu2).1
              simp only at hopt2 hdep
              omega
            · have hjump2 := inv.mapOpt u2 e2 he2 k2 hp2
              exact hwv (hexp u2 e2 he2 (by omega) (by omega) w hmem2)
            · rw [hok2] at hfail2
              cases hfail2
      have hinv2 : BfsInvCore ctx c N
          { st with queue := st.queue ++ [(w, d + 1)], visited := w :: st.visited } := by
        refine ⟨inv.cacheOk, inv.cacheSub, List.mem_cons_of_mem w inv.centerVis,
          ?_, ?_, ?_, inv.mapSound, inv.mapOpt, ?_⟩
        · intro p hp
          rcases List.mem_append.mp hp with hp1 | hp2
          · exact List.mem_cons_of_mem w (inv.qVis p hp1)
          · simp only [List.mem_singleton] at hp2
            rw [hp2]
            exact List.mem_cons_self w st.visited
        · intro p hp
          rcases List.mem_append.mp hp with hp1 | hp2
          · exact inv.qSound p hp1
          · simp only [List.mem_singleton] at hp2
            rw [hp2]
            exact ⟨SPath.succ hSPu hfoku (hsub w (List.mem_cons_self w pending)), hdN⟩
        · intro p hp
          rcases List.mem_append.mp hp with hp1 | hp2
          · exact inv.qOpt p hp1
          · simp only [List.mem_singleton] at hp2
            rw [hp2]
            intro k hpk
            show d + 1 ≤ k
            by_contra hcon
            exact hwnot k (by omega) hpk
        · intro v hv
          rcases List.mem_cons.mp hv with rfl | hv2
          · exact Or.inl ⟨d + 1, List.mem_append.mpr (Or.inr (List.mem_singleton.mpr rfl))⟩
          · rcases inv.visProc v hv2 with ⟨dv, hqv⟩ | hrest | hrest
            · exact Or.inl ⟨dv, List.mem_append.mpr (Or.inl hqv)⟩
            · exact Or.inr (Or.inl hrest)
            · exact Or.inr (Or.inr hrest)
      have hEE2 : ExpandedExcept ctx N u pending
          { st with queue := st.queue ++ [(w, d + 1)], visited := w :: st.visited } := by
        intro v e hle hjN w2 hw2
        rcases hEE v e hle hjN w2 hw2 with hvis | ⟨rfl, hwp⟩
        · exact Or.inl (List.mem_cons_of_mem w hvis)
        · rcases List.mem_cons.mp hwp with h2 | hmem2
          · exact Or.inl (by rw [h2]; exact List.mem_cons_self w st.visited)
          · exact Or.inr ⟨rfl, hmem2⟩
      exact ih _ (fun w2 hw2 => hsub w2 (List.mem_cons_of_mem w hw2)) hinv2 hEE2
        (qShapeAt_append w hqs) huL


theorem step_core {ctx : MapCtx} {c : Int} {N : Nat} {st : BfsState}
    (inv : BfsInvCore ctx c N st)
    {u : Int} {d : Nat} {rest : List (Int × Nat)} (hq : st.queue = (u, d) :: rest)
    {dta : SysData} (hdata : ctx.dataOf u = some dta)
    {c1 : SysCache}
    (hc1Ok : ∀ v dd, c1.lookup v = some dd → ctx.dataOf v = some dd)
    (hc1Sub : ∀ v dd, ctx.cache0.lookup v = some dd → c1.lookup v = some dd)
    (cx cz : Int) :
    BfsInvCore ctx c N
      { map :=
          (u,
            { name := dta.name, jumps := d, xRel := dta.x - cx, zRel := dta.z - cz,
              stargates := dta.connections, jumpBridges := ctx.jb u }) :: st.map,
        queue := rest, visited := st.visited, cache := c1, updated := true } := by
  have hmemq : (u, d) ∈ st.queue := by rw [hq]; exact List.mem_cons_self _ _
  have hqs := inv.qSound _ hmemq
  have hfoku : ctx.fetchOk u = true := by
    unfold MapCtx.fetchOk
    rw [hdata]
    rfl
  refine ⟨hc1Ok, hc1Sub, inv.centerVis, ?_, ?_, ?_, ?_, ?_, ?_⟩
  · intro p hp
    exact inv.qVis p (by rw [hq]; exact List.mem_cons_of_mem _ hp)
  · intro p hp
    exact inv.qSound p (by rw [hq]; exact List.mem_cons_of_mem _ hp)
  · intro p hp
    exact inv.qOpt p (by rw [hq]; exact List.mem_cons_of_mem _ hp)
  · intro v e hle
    by_cases hvu : v = u
    · subst hvu
      rw [lookup_cons_self] at hle
      injection hle with he
      subst he
      exact ⟨hfoku, hqs.2, hqs.1⟩
    · rw [lookup_cons_ne _ _ hvu] at hle
      exact inv.mapSound v e hle
  · intro v e hle
    by_cases hvu : v = u
    · subst hvu
      rw [lookup_cons_self] at hle
      injection hle with he
      subst he
      exact fun k hk => inv.qOpt _ hmemq k hk
    · rw [lookup_cons_ne _ _ hvu] at hle
      exact inv.mapOpt v e hle
  · intro v hv
    by_cases hvu : v = u
    · subst hvu
      exact Or.inr (Or.inl ⟨_, lookup_cons_self _ _ _⟩)
    · rcases inv.visProc v hv with ⟨dv, hqv⟩ | ⟨e, he⟩ | hf
      · rw [hq] at hqv
        rcases List.mem_cons.mp hqv with h1 | h2
        · exact absurd (congrArg Prod.fst h1) hvu
        · exact Or.inl ⟨dv, h2⟩
      · exact Or.inr (Or.inl ⟨e, by rw [lookup_cons_ne _ _ hvu]; exact he⟩)
      · exact Or.inr (Or.inr hf)

theorem step_expandedExcept {ctx : MapCtx} {N : Nat} {st : BfsState}
    (hExp : Expanded ctx N st)
    {u : Int} {d : Nat} {rest : List (Int × Nat)}
    {dta : SysData} (hdata : ctx.dataOf u = some dta)
    {c1 : SysCache} (cx cz : Int) :
    ExpandedExcept ctx N u ((dta.connections ++ ctx.jb u).dedup)
      { map :=
          (u,
            { name := dta.name, jumps := d, xRel := dta.x - cx, zRel := dta.z - cz,
              stargates := dta.connections, jumpBridges := ctx.jb u }) :: st.map,
        queue := rest, visited := st.visited, cache := c1, updated := true } := by
  intro v e hle hjN w hw
  by_cases hvu : v = u
  · subst hvu
    refine Or.inr ⟨rfl, ?_⟩
    have hn : ctx.nbrs v = (dta.connections ++ ctx.jb v).dedup := by
      unfold MapCtx.nbrs
      rw [hdata]
    rw [hn] at hw
    exact hw
  · rw [lookup_cons_ne _ _ hvu] at hle
    exact Or.inl (hExp v e hle hjN w hw)

theorem step_expanded_stop {ctx : MapCtx} {N : Nat} {st : BfsState}
    (hExp : Expanded ctx N st)
    {u : Int} {d : Nat} {rest : List (Int × Nat)} (hdN : ¬ d < N)
    {dta : SysData} {c1 : SysCache} (cx cz : Int) :
    Expanded ctx N
      { map :=
          (u,
            { name := dta.name, jumps := d, xRel := dta.x - cx, zRel := dta.z - cz,
              stargates := dta.connections, jumpBridges := ctx.jb u }) :: st.map,
        queue := rest, visited := st.visited, cache := c1, updated := true } := by
  intro v e hle hjN w hw
  by_cases hvu : v = u
  · subst hvu
    rw [lookup_cons_self] at hle
    injection hle with he
    subst he
    exact absurd hjN hdN
  · rw [lookup_cons_ne _ _ hvu] at hle
    exact hExp v e hle hjN w hw

theorem bfsLoop_invariant {ctx : MapCtx} {c : Int} {N : Nat} (cx cz : Int) :
    ∀ (fuel : Nat) (st : BfsState),
      BfsInvCore ctx c N st → Expanded ctx N st → QShape st.queue →
      ∀ res, bfsLoop ctx.esi ctx.jb cx cz N fuel st = some res →
        BfsInvCore ctx c N res ∧ Expanded ctx N res ∧ res.queue = [] := by
  intro fuel
  induction fuel with
  | zero =>
    intro st inv hExp hQ res hrun
    cases hq : st.queue with
    | nil =>
      simp only [bfsLoop, hq] at hrun
      injection hrun with hres
      subst hres
      exact ⟨inv, hExp, hq⟩
    | cons p rest =>
      simp only [bfsLoop, hq] at hrun
      exact Option.noConfusion hrun
  | succ fuel ih =>
    intro st inv hExp hQ res hrun
    cases hq : st.queue with
    | nil =>
      simp only [bfsLoop, hq] at hrun
      injection hrun with hres
      subst hres
      exact ⟨inv, hExp, hq⟩
    | cons p rest =>
      obtain ⟨u, d⟩ := p
      have fspec := fetch_spec ctx inv.cacheOk inv.cacheSub u
      rcases hfe : fetchSystemData ctx.esi st.cache u with ⟨_ | dta, c1⟩ <;>
        rw [hfe] at fspec <;>
          simp only [bfsLoop, hq, hfe] at hrun
      · have hdnone : ctx.dataOf u = none := fspec.1.symm
        have hfail : ctx.fetchOk u = false := by
          unfold MapCtx.fetchOk
          rw [hdnone]
          rfl
        refine ih
          { map := st.map, queue := rest, visited := st.visited, cache := c1,
            updated := st.updated } ?_ hExp (qShape_tail (hq ▸ hQ)) res hrun
        refine ⟨fspec.2.1, fspec.2.2, inv.centerVis, ?_, ?_, ?_, inv.mapSound, inv.mapOpt, ?_⟩
        · intro p2 hp2
          exact inv.qVis p2 (by rw [hq]; exact List.mem_cons_of_mem _ hp2)
        · intro p2 hp2
          exact inv.qSound p2 (by rw [hq]; exact List.mem_cons_of_mem _ hp2)
        · intro p2 hp2
          exact inv.qOpt p2 (by rw [hq]; exact List.mem_cons_of_mem _ hp2)
        · intro v hv
          rcases inv.visProc v hv with ⟨dv, hqv⟩ | hm | hf
          · rw [hq] at hqv
            rcases List.mem_cons.mp hqv with h1 | h2
            · have hvu : v = u := congrArg Prod.fst h1
              exact Or.inr (Or.inr (hvu ▸ hfail))
            · exact Or.inl ⟨dv, h2⟩
          · exact Or.inr (Or.inl hm)
          · exact Or.inr (Or.inr hf)
      · have hdata : ctx.dataOf u = some dta := fspec.1.symm
        have hmemq : (u, d) ∈ st.queue := by rw [hq]; exact List.mem_cons_self _ _
        have hqsnd := inv.qSound _ hmemq
        have hfoku : ctx.fetchOk u = true := by
          unfold MapCtx.fetchOk
          rw [hdata]
          rfl
        have hinv1 := step_core inv hq hdata fspec.2.1 fspec.2.2 cx cz
        by_cases hdlt : d < N
        · rw [if_pos hdlt] at hrun
          have hnbrs : ctx.nbrs u = (dta.connections ++ ctx.jb u).dedup := by
            unfold MapCtx.nbrs
            rw [hdata]
          obtain ⟨invF, expF, qsF, _, _⟩ :=
            expand_fold hdlt hfoku hqsnd.1 ((dta.connections ++ ctx.jb u).dedup) _
              (fun w hw => by rw [hnbrs]; exact hw)
              hinv1 (step_expandedExcept hExp hdata cx cz)
              (qShapeAt_of_cons (hq ▸ hQ))
              ⟨_, lookup_cons_self _ _ _, rfl⟩
          exact ih _ invF expF qsF res hrun
        · rw [if_neg hdlt] at hrun
          exact ih _ hinv1 (step_expanded_stop hExp hdlt cx cz)
            (qShapeAt_to_qShape (qShapeAt_of_cons (hq ▸ hQ))) res hrun


/-- C2: a completed `get_local_map` pass (a) records only nodes with a
successful fetch, each at a hop distance witnessed by a path of at most
`maxJumps` hops through fetch-succeeding nodes along the union of stargate
and bridge edges; (b) contains every node with a successful fetch reachable
from the center within `maxJumps` such hops; and (c) contains no entry for
any node whose fetch fails. -/
theorem bfs_bound (ctx : MapCtx) (center : Int) (N fuel : Nat)
    (m : List (Int × MapEntry)) (cch : SysCache) (fl : Bool)
    (hrun : getLocalMap ctx center N fuel = some (m, cch, fl)) :
    (∀ v e, m.lookup v = some e →
      ctx.fetchOk v = true ∧ e.jumps ≤ N ∧ SPath ctx center v e.jumps) ∧
    (∀ v k, k ≤ N → SPath ctx center v k → ctx.fetchOk v = true →
      (m.lookup v).isSome = true) ∧
    (∀ v, ctx.fetchOk v = false → m.lookup v = none) := by
  unfold getLocalMap at hrun
  have fspec0 := @fetch_spec ctx ctx.cache0
    (fun v d h => by unfold MapCtx.dataOf; rw [h]) (fun v d h => h) center
  rcases hfe : fetchSystemData ctx.esi ctx.cache0 center with ⟨_ | cd, c1⟩ <;>
    rw [hfe] at fspec0 <;> simp only [hfe] at hrun
  · injection hrun with hres
    injection hres with hm hrest
    injection hrest with hcch hfl
    subst hm
    have hcfail : ctx.fetchOk center = false := by
      unfold MapCtx.fetchOk
      rw [← fspec0.1]
      rfl
    refine ⟨?_, ?_, ?_⟩
    · intro v e hle
      cases hle
    · intro v k hkN hpath hok
      rcases Nat.eq_zero_or_pos k with rfl | hkpos
      · cases hpath
        rw [hok] at hcfail
        cases hcfail
      · have := spath_center_ok hpath hkpos
        rw [this] at hcfail
        cases hcfail
    · intro v _
      rfl
  · cases hbl : bfsLoop ctx.esi ctx.jb cd.x cd.z N fuel
        { map := [], queue := [(center, 0)], visited := [center], cache := c1,
          updated := false } with
    | none =>
      rw [hbl] at hrun
      cases hrun
    | some res =>
      rw [hbl] at hrun
      simp only [Option.map_some'] at hrun
      injection hrun with hres
      injection hres with hm hrest
      subst hm
      have inv0 : BfsInvCore ctx center N
          { map := [], queue := [(center, 0)], visited := [center], cache := c1,
            updated := false } := by
        refine ⟨fspec0.2.1, fspec0.2.2, List.mem_singleton.mpr rfl, ?_, ?_, ?_, ?_, ?_, ?_⟩
        · intro p hp
          rw [List.mem_singleton] at hp
          rw [hp]
          exact List.mem_singleton.mpr rfl
        · intro p hp
          rw [List.mem_singleton] at hp
          rw [hp]
          exact ⟨SPath.zero, Nat.zero_le N⟩
        · intro p hp
          rw [List.mem_singleton] at hp
          rw [hp]
          intro k _
          exact Nat.zero_le k
        · intro v e hle
          cases hle
        · intro v e hle
          cases hle
        · intro v hv
          rw [List.mem_singleton] at hv
          exact Or.inl ⟨0, by rw [hv]; exact List.mem_singleton.mpr rfl⟩
      have hExp0 : Expanded ctx N
          { map := [], queue := [(center, 0)], visited := [center], cache := c1,
            updated := false } := by
        intro v e hle
        cases hle
      have hQ0 : QShape [((center : Int), (0 : Nat))] :=
        ⟨0, [(center, 0)], [], by simp, by simp, by simp⟩
      obtain ⟨invF, expF, hqnil⟩ := bfsLoop_invariant cd.x cd.z fuel _ inv0 hExp0 hQ0 res hbl
      refine ⟨invF.mapSound, ?_, ?_⟩
      · intro v k hkN hpath hok
        have hvis : v ∈ res.visited := by
          refine frontier_visited invF N (fun v2 e2 hle2 hj2 _ => expF v2 e2 hle2 hj2)
            k hkN hkN v hpath ?_
          intro p hp
          rw [hqnil] at hp
          cases hp
        rcases invF.visProc v hvis with ⟨dv, hqv⟩ | ⟨e, he⟩ | hf
        · rw [hqnil] at hqv
          cases hqv
        · rw [he]
          rfl
        · rw [hok] at hf
          cases hf
      · intro v hfv
        cases hle : res.map.lookup v with
        | none => rfl
        | some e =>
          have := (invF.mapSound v e hle).1
          rw [hfv] at this
          cases this

/-- C2 witness: the theorem applied to the concrete two-node universe with
radius 1 shows node 2 (one hop from the center) is in the snapshot. -/
theorem bfs_bound_witness :
    (List.lookup (2 : Int)
        [((2 : Int), (⟨"Beta", 1, 1, 1, [], []⟩ : MapEntry)),
         ((1 : Int), (⟨"Alpha", 0, 0, 0, [2], []⟩ : MapEntry))]).isSome = true :=
  (bfs_bound ctxW2 1 1 10 _
      [((2 : Int), (⟨"Beta", 1, 1, []⟩ : SysData)),
       ((1 : Int), (⟨"Alpha", 0, 0, [2]⟩ : SysData))]
      true (by decide)).2.1 2 1 (by omega)
    (SPath.succ SPath.zero (by decide) (by decide)) (by decide)

/-- C10: when the center node's own fetch fails, `get_local_map` returns an
empty snapshot (no nodes at all), leaves the durable cache untouched, and
performs no save — even when other nodes are present in the cache. -/
theorem center_fetch_fail_empty (ctx : MapCtx) (center : Int) (N fuel : Nat)
    (hc : ctx.cache0.lookup center = none) (he : ctx.esi center = none) :
    getLocalMap ctx center N fuel = some ([], ctx.cache0, false) := by
  unfold getLocalMap
  simp only [fetchSystemData, hc, he]

/-- C10 witness: the theorem applied to a store that caches node 2 while the
center 1 is unfetchable. -/
theorem center_fetch_fail_empty_witness :
    getLocalMap ctxW10 1 3 5 = some ([], ctxW10.cache0, false) :=
  center_fetch_fail_empty ctxW10 1 3 5 rfl rfl

/-- C5: a pass whose every touched node was already in the durable cache
still reports `cache_updated = true` and therefore persists the (unchanged)
cache: with node 1 cached and radius 0, the returned cache equals the initial
cache, yet the save flag is true.  The flag is set on every successful fetch,
cache hit or not, so the guard around `_save_cache` never suppresses the
write — contradicting the claim that a pass touching no previously-uncached
node performs no persist. -/
theorem cache_save_flag_bug :
    getLocalMap ctxW5 1 0 5
      = some ([((1 : Int), (⟨"Alpha", 0, 0, 0, [], []⟩ : MapEntry))], ctxW5.cache0, true) := by
  decide


/-! ### C9/C6 — the line parser -/

theorem orElse_eq_some {α : Type} {x y : Option α} {a : α} (h : (x <|> y) = some a) :
    x = some a ∨ (x = none ∧ y = some a) := by
  cases x with
  | none => exact Or.inr ⟨rfl, h⟩
  | some v => exact Or.inl h

theorem isSome_orElse_left {α : Type} {x y : Option α} (hx : x.isSome = true) :
    (x <|> y).isSome = true := by
  cases x with
  | none => cases hx
  | some v => rfl

theorem isSome_orElse_right {α : Type} {x y : Option α} (hy : y.isSome = true) :
    (x <|> y).isSome = true := by
  cases x with
  | none => exact hy
  | some v => rfl

theorem wsStarG_sound {α : Type} (k : List Char → Option α) :
    ∀ cs a, wsStarG k cs = some a →
      ∃ w rest, cs = w ++ rest ∧ (∀ c ∈ w, isPySpace c = true) ∧ k rest = some a := by
  intro cs
  induction cs with
  | nil =>
    intro a h
    exact ⟨[], [], rfl, by simp, h⟩
  | cons c cs ih =>
    intro a h
    rw [wsStarG] at h
    by_cases hsp : isPySpace c = true
    · rw [if_pos hsp] at h
      rcases orElse_eq_some h with h1 | ⟨_, h2⟩
      · obtain ⟨w, rest, heq, hw, hk⟩ := ih a h1
        refine ⟨c :: w, rest, by rw [heq, List.cons_append], ?_, hk⟩
        intro x hx
        rcases List.mem_cons.mp hx with rfl | hx2
        · exact hsp
        · exact hw x hx2
      · exact ⟨[], c :: cs, rfl, by simp, h2⟩
    · rw [if_neg hsp] at h
      exact ⟨[], c :: cs, rfl, by simp, h⟩

theorem wsPlusG_sound {α : Type} (k : List Char → Option α) :
    ∀ cs a, wsPlusG k cs = some a →
      ∃ w rest, cs = w ++ rest ∧ w ≠ [] ∧ (∀ c ∈ w, isPySpace c = true) ∧
        k rest = some a := by
  intro cs a h
  cases cs with
  | nil => cases h
  | cons c cs =>
    rw [wsPlusG] at h
    by_cases hsp : isPySpace c = true
    · rw [if_pos hsp] at h
      obtain ⟨w, rest, heq, hw, hk⟩ := wsStarG_sound k cs a h
      refine ⟨c :: w, rest, by rw [heq, List.cons_append], by simp, ?_, hk⟩
      intro x hx
      rcases List.mem_cons.mp hx with rfl | hx2
      · exact hsp
      · exact hw x hx2
    · rw [if_neg hsp] at h
      cases h

theorem dotStarL_sound {α : Type} (k : List Char → List Char → Option α) :
    ∀ cs acc a, dotStarL k acc cs = some a →
      ∃ t rest, cs = t ++ rest ∧ (∀ c ∈ t, c ≠ '\n') ∧
        k (acc.reverse ++ t) rest = some a := by
  intro cs
  induction cs with
  | nil =>
    intro acc a h
    rw [dotStarL] at h
    exact ⟨[], [], rfl, by simp, by simpa using h⟩
  | cons c cs ih =>
    intro acc a h
    rw [dotStarL] at h
    rcases orElse_eq_some h with h1 | ⟨_, h2⟩
    · exact ⟨[], c :: cs, rfl, by simp, by simpa using h1⟩
    · by_cases hc : c = '\n'
      · rw [if_pos hc] at h2
        cases h2
      · rw [if_neg hc] at h2
        obtain ⟨t, rest, heq, hnl, hk⟩ := ih (c :: acc) a h2
        refine ⟨c :: t, rest, by rw [heq, List.cons_append], ?_, ?_⟩
        · intro x hx
          rcases List.mem_cons.mp hx with rfl | hx2
          · exact hc
          · exact hnl x hx2
        · simpa [List.reverse_cons, List.append_assoc] using hk

theorem wsStarG_complete {α : Type} (k : List Char → Option α) :
    ∀ (w rest : List Char), (∀ c ∈ w, isPySpace c = true) →
      (k rest).isSome = true → (wsStarG k (w ++ rest)).isSome = true := by
  intro w
  induction w with
  | nil =>
    intro rest _ hk
    cases rest with
    | nil => exact hk
    | cons c cs =>
      rw [List.nil_append, wsStarG]
      by_cases hsp : isPySpace c = true
      · rw [if_pos hsp]
        exact isSome_orElse_right hk
      · rw [if_neg hsp]
        exact hk
  | cons c w ih =>
    intro rest hw hk
    rw [List.cons_append, wsStarG, if_pos (hw c (List.mem_cons_self c w))]
    exact isSome_orElse_left (ih rest (fun x hx => hw x (List.mem_cons_of_mem c hx)) hk)

theorem wsPlusG_complete {α : Type} (k : List Char → Option α) :
    ∀ (w rest : List Char), w ≠ [] → (∀ c ∈ w, isPySpace c = true) →
      (k rest).isSome = true → (wsPlusG k (w ++ rest)).isSome = true := by
  intro w rest hne hw hk
  cases w with
  | nil => exact absurd rfl hne
  | cons c w =>
    rw [List.cons_append, wsPlusG, if_pos (hw c (List.mem_cons_self c w))]
    exact wsStarG_complete k w rest (fun x hx => hw x (List.mem_cons_of_mem c hx)) hk

theorem dotStarL_complete {α : Type} (k : List Char → List Char → Option α) :
    ∀ (t : List Char), (∀ c ∈ t, c ≠ '\n') →
      ∀ (acc rest : List Char), (k (acc.reverse ++ t) rest).isSome = true →
      (dotStarL k acc (t ++ rest)).isSome = true := by
  intro t
  induction t with
  | nil =>
    intro _ acc rest hk
    cases rest with
    | nil =>
      rw [show ([] : List Char) ++ [] = [] from rfl, dotStarL]
      simpa using hk
    | cons c cs =>
      rw [List.nil_append, dotStarL]
      exact isSome_orElse_left (by simpa using hk)
  | cons c t ih =>
    intro hnl acc rest hk
    rw [List.cons_append, dotStarL]
    refine isSome_orElse_right ?_
    rw [if_neg (hnl c (List.mem_cons_self c t))]
    refine ih (fun x hx => hnl x (List.mem_cons_of_mem c hx)) (c :: acc) rest ?_
    simpa [List.reverse_cons, List.append_assoc] using hk


theorem not_mem_of_contains_eq_false {l : List Char} {a : Char}
    (h : l.contains a = false) : ∀ c ∈ l, c ≠ a := by
  intro c hc hca
  subst hca
  have h2 : l.elem c = true := List.elem_iff.mpr hc
  rw [show l.contains c = l.elem c from rfl, h2] at h
  cases h

theorem logMatch_sound {s T A M : String}
    (h : logMatch s = some (T, A, M)) : EnvelopeMatch s T A M := by
  unfold logMatch at h
  cases hst : stripChars s.data with
  | nil => simp only [hst] at h; cases h
  | cons c0 r1 =>
    simp only [hst] at h
    by_cases hc0 : c0 = '['
    · rw [if_pos hc0] at h
      obtain ⟨w1, r2, heq1, hne1, hsp1, h⟩ := wsPlusG_sound _ r1 _ h
      obtain ⟨tg, r3, heq2, hnlT, h⟩ := dotStarL_sound _ r2 [] _ h
      simp only [List.reverse_nil, List.nil_append] at h
      obtain ⟨w2, r4, heq3, hne2, hsp2, h⟩ := wsPlusG_sound _ r3 _ h
      cases hr4 : r4 with
      | nil => simp only [hr4] at h; cases h
      | cons c1 r5 =>
        simp only [hr4] at h
        by_cases hc1 : c1 = ']'
        · rw [if_pos hc1] at h
          obtain ⟨w3, r6, heq4, hne3, hsp3, h⟩ := wsPlusG_sound _ r5 _ h
          obtain ⟨ag, r7, heq5, hnlA, h⟩ := dotStarL_sound _ r6 [] _ h
          simp only [List.reverse_nil, List.nil_append] at h
          obtain ⟨w4, r8, heq6, hne4, hsp4, h⟩ := wsPlusG_sound _ r7 _ h
          cases hr8 : r8 with
          | nil => simp only [hr8] at h; cases h
          | cons c2 r9 =>
            simp only [hr8] at h
            by_cases hc2 : c2 = '>'
            · rw [if_pos hc2] at h
              obtain ⟨w5, r10, heq7, hne5, hsp5, h⟩ := wsPlusG_sound _ r9 _ h
              by_cases hnl : r10.contains '\n' = true
              · rw [if_pos hnl] at h
                cases h
              · rw [if_neg hnl] at h
                injection h with h2
                injection h2 with hT h3
                injection h3 with hA hM
                refine ⟨w1, w2, w3, w4, w5, ⟨hne1, hsp1⟩, ⟨hne2, hsp2⟩, ⟨hne3, hsp3⟩,
                  ⟨hne4, hsp4⟩, ⟨hne5, hsp5⟩, ?_, ?_, ?_, ?_⟩
                · rw [← hT]
                  exact hnlT
                · rw [← hA]
                  exact hnlA
                · rw [← hM]
                  exact not_mem_of_contains_eq_false (Bool.of_not_eq_true hnl)
                · have hT2 : T.data = tg := by rw [← hT]
                  have hA2 : A.data = ag := by rw [← hA]
                  have hM2 : M.data = r10 := by rw [← hM]
                  rw [hst, hc0, heq1, heq2, heq3, hr4, hc1, heq4, heq5, heq6, hr8, hc2,
                    heq7, hT2, hA2, hM2]
                  simp [List.append_assoc]
            · rw [if_neg hc2] at h
              cases h
        · rw [if_neg hc1] at h
          cases h
    · rw [if_neg hc0] at h
      cases h

theorem logMatch_complete {s T A M : String} (h : EnvelopeMatch s T A M) :
    (logMatch s).isSome = true := by
  obtain ⟨w1, w2, w3, w4, w5, hw1, hw2, hw3, hw4, hw5, hT, hA, hM, heq⟩ := h
  unfold logMatch
  simp only [heq, List.append_assoc]
  rw [if_pos trivial]
  refine wsPlusG_complete _ w1 _ hw1.1 hw1.2 ?_
  refine dotStarL_complete _ T.data hT [] _ ?_
  simp only [List.reverse_nil, List.nil_append]
  refine wsPlusG_complete _ w2 _ hw2.1 hw2.2 ?_
  show (if (']' : Char) = ']' then _ else none).isSome = true
  rw [if_pos rfl]
  refine wsPlusG_complete _ w3 _ hw3.1 hw3.2 ?_
  refine dotStarL_complete _ A.data hA [] _ ?_
  simp only [List.reverse_nil, List.nil_append]
  refine wsPlusG_complete _ w4 _ hw4.1 hw4.2 ?_
  show (if ('>' : Char) = '>' then _ else none).isSome = true
  rw [if_pos rfl]
  refine wsPlusG_complete _ w5 _ hw5.1 hw5.2 ?_
  have hMc : M.data.contains '\n' = false := by
    by_cases hc : M.data.contains '\n' = true
    · rw [List.contains_eq_any_beq] at hc
      simp only [List.any_eq_true] at hc
      obtain ⟨c, hcm, hcb⟩ := hc
      exact absurd (Eq.symm (eq_of_beq hcb)) (hM c hcm)
    · exact Bool.of_not_eq_true hc
  rw [hMc]
  rfl


/-- C9: whenever `parse_line` returns a record, the input line (after
trimming) matches the envelope pattern `[ <timestamp> ] <author> > <message>`
with the record's `timestamp` and `author` fields as the captured texts (and
`rawMessage` as the message); and whenever the line matches the envelope
pattern at all, `parse_line` does not return null. -/
theorem parse_envelope (s : String) :
    (∀ r, parseLine s = some r → EnvelopeMatch s r.timestamp r.author r.rawMessage) ∧
    ((∃ T A M, EnvelopeMatch s T A M) → (parseLine s).isSome = true) := by
  constructor
  · intro r hr
    unfold parseLine at hr
    cases hlm : logMatch s with
    | none =>
      rw [hlm] at hr
      cases hr
    | some g =>
      rw [hlm] at hr
      simp only [Option.map_some'] at hr
      injection hr with hr2
      subst hr2
      obtain ⟨T, A, M⟩ := g
      exact logMatch_sound hlm
  · rintro ⟨T, A, M, hE⟩
    unfold parseLine
    have hs := logMatch_complete hE
    cases hlm : logMatch s with
    | none =>
      rw [hlm] at hs
      cases hs
    | some g =>
      rfl

/-- C9 witness: the theorem's completeness half applied to a concrete
well-formed log line. -/
theorem parse_envelope_witness :
    (parseLine "[ 2026.02.26 22:15:00 ] Jardy > VFK-IV nv").isSome = true :=
  (parse_envelope "[ 2026.02.26 22:15:00 ] Jardy > VFK-IV nv").2
    ⟨"2026.02.26 22:15:00", "Jardy", "VFK-IV nv",
      ⟨[' '], [' '], [' '], [' '], [' '], ⟨by decide, by decide⟩, ⟨by decide, by decide⟩,
        ⟨by decide, by decide⟩, ⟨by decide, by decide⟩, ⟨by decide, by decide⟩,
        by unfold NoNl; decide, by unfold NoNl; decide, by unfold NoNl; decide, by decide⟩⟩

/-- C6: for every successfully parsed line, the record's status is `clear`
exactly when the whitespace tokens of the lowercased message include `clr` or
`clear`; otherwise it is `no_vis` exactly when the tokens include `nv` or the
lowercased message contains the phrase `no vis`; and otherwise it defaults to
`hostile`. -/
theorem status_detection (s : String) (r : IntelRecord) (h : parseLine s = some r) :
    (r.status = "clear" ↔
      ("clr" ∈ pySplit (pyLower r.rawMessage) ∨ "clear" ∈ pySplit (pyLower r.rawMessage))) ∧
    (r.status = "no_vis" ↔
      (¬("clr" ∈ pySplit (pyLower r.rawMessage) ∨ "clear" ∈ pySplit (pyLower r.rawMessage)) ∧
        ("nv" ∈ pySplit (pyLower r.rawMessage) ∨
          infixOfCL ("no vis".data) (pyLower r.rawMessage).data = true))) ∧
    (r.status = "hostile" ↔
      (¬("clr" ∈ pySplit (pyLower r.rawMessage) ∨ "clear" ∈ pySplit (pyLower r.rawMessage)) ∧
        ¬("nv" ∈ pySplit (pyLower r.rawMessage) ∨
          infixOfCL ("no vis".data) (pyLower r.rawMessage).data = true))) := by
  have hstat : r.status = statusOf r.rawMessage := by
    unfold parseLine at h
    cases hlm : logMatch s with
    | none =>
      rw [hlm] at h
      cases h
    | some g =>
      rw [hlm] at h
      simp only [Option.map_some'] at h
      injection h with h2
      subst h2
      rfl
  rw [hstat]
  unfold statusOf
  by_cases hcl : ("clr" ∈ pySplit (pyLower r.rawMessage) ∨ "clear" ∈ pySplit (pyLower r.rawMessage))
  · have hb : ((pySplit (pyLower r.rawMessage)).contains "clr"
        || (pySplit (pyLower r.rawMessage)).contains "clear") = true := by
      rcases hcl with h1 | h1
      · rw [Bool.or_eq_true]
        exact Or.inl (List.elem_iff.mpr h1)
      · rw [Bool.or_eq_true]
        exact Or.inr (List.elem_iff.mpr h1)
    rw [if_pos hb]
    refine ⟨⟨fun _ => hcl, fun _ => rfl⟩, ⟨fun hh => absurd hh (by decide), ?_⟩,
      ⟨fun hh => absurd hh (by decide), ?_⟩⟩
    · rintro ⟨hnc, _⟩
      exact absurd hcl hnc
    · rintro ⟨hnc, _⟩
      exact absurd hcl hnc
  · have hb : ((pySplit (pyLower r.rawMessage)).contains "clr"
        || (pySplit (pyLower r.rawMessage)).contains "clear") = false := by
      rw [Bool.or_eq_false_iff]
      constructor
      · cases hc : (pySplit (pyLower r.rawMessage)).contains "clr"
        · rfl
        · exact absurd (Or.inl (List.elem_iff.mp hc)) hcl
      · cases hc : (pySplit (pyLower r.rawMessage)).contains "clear"
        · rfl
        · exact absurd (Or.inr (List.elem_iff.mp hc)) hcl
    rw [if_neg (by rw [hb]; exact Bool.false_ne_true)]
    by_cases hnv : ("nv" ∈ pySplit (pyLower r.rawMessage) ∨
        infixOfCL ("no vis".data) (pyLower r.rawMessage).data = true)
    · have hb2 : ((pySplit (pyLower r.rawMessage)).contains "nv"
          || infixOfCL ("no vis".data) (pyLower r.rawMessage).data) = true := by
        rcases hnv with h1 | h1
        · rw [Bool.or_eq_true]
          exact Or.inl (List.elem_iff.mpr h1)
        · rw [Bool.or_eq_true]
          exact Or.inr h1
      rw [if_pos hb2]
      exact ⟨⟨fun hh => absurd hh (by decide), fun hh => absurd hh hcl⟩,
        ⟨fun _ => ⟨hcl, hnv⟩, fun _ => rfl⟩,
        ⟨fun hh => absurd hh (by decide), fun hh => absurd hnv hh.2⟩⟩
    · have hb2 : ((pySplit (pyLower r.rawMessage)).contains "nv"
          || infixOfCL ("no vis".data) (pyLower r.rawMessage).data) = false := by
        rw [Bool.or_eq_false_iff]
        constructor
        · cases hc : (pySplit (pyLower r.rawMessage)).contains "nv"
          · rfl
          · exact absurd (Or.inl (List.elem_iff.mp hc)) hnv
        · cases hc : infixOfCL ("no vis".data) (pyLower r.rawMessage).data
          · rfl
          · exact absurd (Or.inr hc) hnv
      rw [if_neg (by rw [hb2]; exact Bool.false_ne_true)]
      refine ⟨⟨fun hh => absurd hh (by decide), fun hh => absurd hh hcl⟩,
        ⟨fun hh => absurd hh (by decide), fun hh => absurd hh.2 hnv⟩,
        ⟨fun _ => ⟨hcl, hnv⟩, fun _ => rfl⟩⟩


/-! ### C4 — tailer failure containment -/

/-- C4: a file-open failure during discovery can stop the poll loop for every
channel.  With alpha's log rotated to a file that cannot be opened, the
refresh pass closes alpha's old handle but leaves the closed entry
registered, and the next read sweep raises `ValueError` — instead of skipping
alpha and continuing to tail beta as the claim states. -/
theorem tailer_closed_handle_bug :
    readPass (refreshFileHandles latestW openFW ["alpha", "beta"] activeW)
      = .error "ValueError: I/O operation on closed file" := by
  rfl

/-- C6 witness: `status_detection` applied to a concrete parsed line whose
message carries a whole-word `nv`. -/
theorem status_detection_witness :
    (⟨"t", "a", "no_vis", "VFK-IV nv"⟩ : IntelRecord).status = "no_vis" :=
  (status_detection "[ t ] a > VFK-IV nv" ⟨"t", "a", "no_vis", "VFK-IV nv"⟩
      (by decide)).2.1.mpr ⟨by decide, Or.inl (by decide)⟩

end RadLocal
